import Mathlib

/-!
Verification of the `morr` pager core (`src/line_reader.rs`, `src/main.rs`).

The byte source is a `List Nat` of byte values (newline = 10).  `usize` values
are modelled as `Nat`; `checked_sub(_).unwrap_or(0)` is Lean's truncated
subtraction `∸`, and the one place the source overflows on purpose —
`overflowing_add(1)` on the `usize::max_value()` sentinel in
`LineReader::lines` — is modelled with an explicit `% 2^64`.
The double-ended `eols_iter` (`once(usize::MAX) ++ memchr_iter ++ once(len)`)
is a list of the not-yet-consumed boundary offsets: forward scans pop from the
front, backward scans pop from the back.
-/

/-- `2^64`, the modulus of `usize` arithmetic. -/
def W : Nat := 2 ^ 64

/-- `usize::max_value()`, the "before first byte" sentinel. -/
def USIZE_MAX : Nat := W - 1

/-- Rust's `std::ops::Range<usize>` (the field `end` is a Lean keyword,
hence `end'`). -/
structure URange where
  start : Nat
  end' : Nat
deriving DecidableEq

/-- `Sign` from `line_reader.rs`. -/
inductive Sign where
  | Pos
  | Neg
deriving DecidableEq

/-- `LinesRange` from `line_reader.rs`. -/
structure LinesRange where
  sign : Sign
  range : URange
deriving DecidableEq

/-- Free function `shiftr` (line_reader.rs:19): move both bounds up. -/
def URange.shiftr (range : URange) (by' : Nat) : URange :=
  ⟨range.start + by', range.end' + by'⟩

/-- Free function `shiftl` (line_reader.rs:23): `start.checked_sub(by).unwrap_or(0)`,
then both bounds drop by the amount actually subtracted. -/
def URange.shiftl (range : URange) (by' : Nat) : URange :=
  let s := range.start - by'
  let diff := range.start - s
  ⟨s, range.end' - diff⟩

/-- Free function `extendr` (line_reader.rs:29). -/
def URange.extendr (range : URange) (by' : Nat) : URange :=
  ⟨range.start, range.end' + by'⟩

/-- Free function `extendl` (line_reader.rs:33). -/
def URange.extendl (range : URange) (by' : Nat) : URange :=
  ⟨range.start - by', range.end'⟩

def LinesRange.pos (range : URange) : LinesRange := ⟨Sign.Pos, range⟩

def LinesRange.neg (range : URange) : LinesRange := ⟨Sign.Neg, range⟩

/-- `LinesRange::shiftl` (line_reader.rs:52): on a backward-anchored range the
raw bounds move the opposite way. -/
def LinesRange.shiftl (r : LinesRange) (by' : Nat) : LinesRange :=
  match r.sign with
  | Sign.Pos => LinesRange.pos (r.range.shiftl by')
  | Sign.Neg => LinesRange.neg (r.range.shiftr by')

/-- `LinesRange::shiftr` (line_reader.rs:59). -/
def LinesRange.shiftr (r : LinesRange) (by' : Nat) : LinesRange :=
  match r.sign with
  | Sign.Pos => LinesRange.pos (r.range.shiftr by')
  | Sign.Neg => LinesRange.neg (r.range.shiftl by')

/-- `LinesRange::extendl` (line_reader.rs:66). -/
def LinesRange.extendl (r : LinesRange) (by' : Nat) : LinesRange :=
  match r.sign with
  | Sign.Pos => LinesRange.pos (r.range.extendl by')
  | Sign.Neg => LinesRange.neg (r.range.extendr by')

/-- `LinesRange::extendr` (line_reader.rs:74). -/
def LinesRange.extendr (r : LinesRange) (by' : Nat) : LinesRange :=
  match r.sign with
  | Sign.Pos => LinesRange.pos (r.range.extendr by')
  | Sign.Neg => LinesRange.neg (r.range.extendl by')

/-- `inverted` (line_reader.rs:83): end-anchored bounds re-expressed from the
start, clamping at 0 via `checked_sub(..).unwrap_or(0)`. -/
def URange.inverted (range : URange) (len : Nat) : URange :=
  ⟨len - range.end', len - range.start⟩

/-- `limit` (line_reader.rs:89): clamp a requested window to `to` available
lines. -/
def URange.limit (range : URange) (to' : Nat) : URange :=
  ⟨min (to' - 1) range.start, min to' range.end'⟩

/-- `ReadLines` (line_reader.rs:93); a "line" is its list of bytes. -/
structure ReadLines where
  range : LinesRange
  lines : List (List Nat)
  buf_range : URange
deriving DecidableEq

/-- `LineReader` (line_reader.rs:102).  `eols_iter` is the unconsumed part of
the double-ended boundary iterator. -/
structure LineReader where
  eols_forw : List Nat
  eols_back : List Nat
  eols_iter : List Nat
  buf : List Nat
  full : Bool
deriving DecidableEq

/-- `memchr_iter(b'\n', buf)`: the ascending positions of newline bytes. -/
def memchr_iter (buf : List Nat) : List Nat :=
  (List.range buf.length).filter (fun i => buf.getD i 0 == 10)

/-- The full boundary iterator built in `LineReader::new` (line_reader.rs:112):
`once(usize::MAX).chain(memchr_iter(..)).chain(once(buf.len()))`. -/
def initEols (buf : List Nat) : List Nat :=
  USIZE_MAX :: (memchr_iter buf ++ [buf.length])

/-- `LineReader::new` (line_reader.rs:111). -/
def LineReader.new (buf : List Nat) : LineReader :=
  ⟨[], [], initEols buf, buf, false⟩

/-- The pop loop inside `LineReader::extend` (line_reader.rs:131): take up to
`n` items off the front of `it`, pushing them onto `eols`; the flag records
`it.next()` returning `None` (early `return true`). -/
def extendLoop : List Nat → List Nat → Nat → List Nat × List Nat × Bool
  | eols, it, 0 => (eols, it, false)
  | eols, [], _ + 1 => (eols, [], true)
  | eols, x :: rest, n + 1 => extendLoop (eols ++ [x]) rest n

/-- `LineReader::extend` (line_reader.rs:124): ensure `last_requested_line + 1`
boundaries are cached; returns the grown cache, the remaining iterator, and
whether the scan is complete (iterator exhausted, or last boundary = `stop`). -/
def extend (eols it : List Nat) (last_requested_line stop : Nat) :
    List Nat × List Nat × Bool :=
  if eols.length ≤ last_requested_line + 1 then
    let r := extendLoop eols it (last_requested_line + 1 - eols.length)
    (r.1, r.2.1, if r.2.2 then true else decide (r.1.getLast? = some stop))
  else
    (eols, it, false)

/-- Slice `&buf[s..e]` of the byte source. -/
def bufSlice (buf : List Nat) (s e : Nat) : List Nat :=
  (buf.take e).drop s

/-- `LineReader::lines` (line_reader.rs:203): windows of two consecutive
boundaries, each line the bytes strictly between them; the `+ 1` is
`overflowing_add(1)`, explicit `% 2^64` (the sentinel wraps to 0). -/
def windows2 : List Nat → List (Nat × Nat)
  | a :: b :: rest => (a, b) :: windows2 (b :: rest)
  | _ => []

def LineReader.lines (rd : LineReader) (requested_eols : List Nat) :
    List (List Nat) :=
  (windows2 requested_eols).map (fun p => bufSlice rd.buf ((p.1 + 1) % W) p.2)

/-- The mutation performed at the top of `LineReader::read_forw`
(line_reader.rs:151-162): extend the forward cache, and on completion merge the
reversed backward cache into it and set `full`. -/
def LineReader.extendForw (rd : LineReader) (last_requested_line : Nat) :
    LineReader :=
  if rd.full then rd
  else
    let r := extend rd.eols_forw rd.eols_iter last_requested_line rd.buf.length
    if r.2.2 then
      ⟨r.1 ++ rd.eols_back.reverse, [], r.2.1, rd.buf, true⟩
    else
      ⟨r.1, rd.eols_back, r.2.1, rd.buf, rd.full⟩

/-- `LineReader::read_forw` (line_reader.rs:150). -/
def LineReader.read_forw (rd0 : LineReader) (range : URange) :
    LineReader × ReadLines :=
  let rd := rd0.extendForw range.end'
  let available_lines := rd.eols_forw.length - 1
  let range := range.limit available_lines
  let slice := (rd.eols_forw.take (range.end' + 1)).drop range.start
  let s := (slice.head?).getD 0
  let e := (slice.getLast?).getD 0
  (rd, ⟨LinesRange.pos range, rd.lines slice, ⟨s, e⟩⟩)

/-- `LineReader::read_back` (line_reader.rs:175).  Backward scans pop from the
back of the iterator (`(&mut self.eols_iter).rev()`), modelled by reversing the
remaining list; on completion (or if already complete) the caches are merged
and the request is re-anchored via `inverted` and served forward. -/
def LineReader.read_back (rd0 : LineReader) (range : URange) :
    LineReader × ReadLines :=
  if rd0.full then
    let rd : LineReader :=
      ⟨rd0.eols_forw ++ rd0.eols_back.reverse, [], rd0.eols_iter, rd0.buf, true⟩
    rd.read_forw (range.inverted (rd.eols_forw.length - 1))
  else
    let r := extend rd0.eols_back rd0.eols_iter.reverse range.end' rd0.buf.length
    if r.2.2 then
      let rd : LineReader :=
        ⟨rd0.eols_forw ++ r.1.reverse, [], r.2.1.reverse, rd0.buf, true⟩
      rd.read_forw (range.inverted (rd.eols_forw.length - 1))
    else
      let rd : LineReader := ⟨rd0.eols_forw, r.1, r.2.1.reverse, rd0.buf, false⟩
      let available_lines := rd.eols_back.length - 1
      let range := range.limit available_lines
      let slice := (rd.eols_back.take (range.end' + 1)).drop range.start
      let s := (slice.head?).getD 0
      let e := (slice.getLast?).getD 0
      (rd, ⟨LinesRange.neg range, rd.lines slice.reverse, ⟨s, e⟩⟩)

/-- `LineReader::read` (line_reader.rs:143). -/
def LineReader.read (rd : LineReader) (r : LinesRange) :
    LineReader × ReadLines :=
  match r.sign with
  | Sign.Pos => rd.read_forw r.range
  | Sign.Neg => rd.read_back r.range

/-- Apply a sequence of reads, keeping only the evolving reader state. -/
def applyReads (rd : LineReader) (rs : List LinesRange) : LineReader :=
  rs.foldl (fun s r => (s.read r).1) rd

/-- Total number of lines the reader ends up with once fully indexed:
one boundary interval per window of two consecutive boundaries. -/
def totalLines (buf : List Nat) : Nat :=
  (memchr_iter buf).length + 1

/-- `VerticalMove` from `main.rs`. -/
inductive VerticalMove where
  | Bottom
  | HalfPageDown
  | HalfPageUp
  | LineDown
  | LineUp
  | PageDown
  | PageUp
  | Top

/-- `mv` (main.rs:94): translate a command into a requested range. -/
def mv (m : VerticalMove) (current_line_range : LinesRange) (rows : Nat) :
    LinesRange :=
  match m with
  | VerticalMove.Top => LinesRange.pos ⟨0, rows⟩
  | VerticalMove.Bottom => LinesRange.neg ⟨0, rows⟩
  | VerticalMove.LineUp => current_line_range.shiftl 1
  | VerticalMove.LineDown => current_line_range.shiftr 1
  | VerticalMove.PageUp => current_line_range.shiftl rows
  | VerticalMove.PageDown => current_line_range.shiftr rows
  | VerticalMove.HalfPageUp => current_line_range.shiftl (rows / 2)
  | VerticalMove.HalfPageDown => current_line_range.shiftr (rows / 2)

/-- `Range::size_hint().0` for `Range<usize>`: the requested width. -/
def size_hint (r : URange) : Nat := r.end' - r.start

/-- `NormalMode` (main.rs:46): the navigator's Viewing state. -/
structure NormalMode where
  line_reader : LineReader
  current_range : LinesRange

/-- `DrawCommand` (main.rs:89); the status text is irrelevant here. -/
inductive DrawCommand where
  | DrawContent (lines : ReadLines)
  | DrawStatus

/-- `NormalMode::mk_draw_commands` (main.rs:65). -/
def NormalMode.mk_draw_commands (_st : NormalMode) (lines : ReadLines) :
    List DrawCommand :=
  [DrawCommand.DrawContent lines, DrawCommand.DrawStatus]

/-- `NormalMode::move_and_read` (main.rs:74).  In the source
`requested_nr - lines.len()` is an unsigned subtraction that would wrap if more
lines were returned than requested; claim C6 is that this never happens, so the
truncated subtraction below agrees with the source on every reachable state. -/
def NormalMode.move_and_read (st : NormalMode) (vmove : VerticalMove)
    (rows : Nat) : NormalMode × ReadLines :=
  let new_range := mv vmove st.current_range rows
  let requested_nr := size_hint new_range.range
  let res := st.line_reader.read new_range
  let lack := requested_nr - res.2.lines.length
  if lack = 0 then ({ st with line_reader := res.1 }, res.2)
  else
    let res2 := res.1.read (new_range.extendl lack)
    ({ st with line_reader := res2.1 }, res2.2)

/-- `NormalMode::process_move` (main.rs:52): redraw only when the materialized
range changed. -/
def NormalMode.process_move (st : NormalMode) (vmove : VerticalMove)
    (rows : Nat) : NormalMode × List DrawCommand :=
  let r := st.move_and_read vmove rows
  if r.2.range ≠ st.current_range then
    let st' := { r.1 with current_range := r.2.range }
    (st', st'.mk_draw_commands r.2)
  else
    (r.1, [])

/-- The initial state built in `main` (main.rs:27-32): one forward read of the
first `rows` lines, its materialized range becoming `current_range`. -/
def initNav (buf : List Nat) (rows : Nat) : NormalMode :=
  let res := (LineReader.new buf).read (LinesRange.pos ⟨0, rows⟩)
  ⟨res.1, res.2.range⟩

/-- The navigator loop of `main` restricted to the vertical-move commands that
reach `process_move` (Quit ends the loop, horizontal moves produce no read). -/
def navRun (buf : List Nat) (rows : Nat) (cmds : List VerticalMove) :
    NormalMode :=
  cmds.foldl (fun st c => (st.process_move c rows).1) (initNav buf rows)

/-- The reachable-state invariant of a `LineReader` over `buf`: the forward
cache, the unconsumed iterator and the reversed backward cache partition the
initial boundary iterator in order (`f` is what the front consumed, `b` what
the back consumed); once `full` is set the two consumed parts have been merged
into the forward cache and the backward cache cleared. -/
def Master (buf : List Nat) (rd : LineReader) : Prop :=
  rd.buf = buf ∧
  ∃ f b, initEols buf = f ++ rd.eols_iter ++ b.reverse ∧
    ((rd.full = false ∧ rd.eols_forw = f ∧ rd.eols_back = b) ∨
     (rd.full = true ∧ rd.eols_forw = f ++ b.reverse ∧ rd.eols_back = []))

/-- The invariant of reachable navigator states (claim C6): the reader is a
reachable reader over `buf`; the current range is at least one line wide; the
forward cache always holds at least two boundaries (and, until the file is
fully indexed, at least `H+1` of them, from the initial full-page read); and a
backward-anchored current range only exists pre-completion, with its start
ordinal at least two below the backward cache length. -/
def NavInv (buf : List Nat) (H : Nat) (st : NormalMode) : Prop :=
  Master buf st.line_reader ∧
  st.current_range.range.start < st.current_range.range.end' ∧
  2 ≤ st.line_reader.eols_forw.length ∧
  (st.line_reader.full = false → H + 1 ≤ st.line_reader.eols_forw.length) ∧
  (st.current_range.sign = Sign.Neg →
    st.line_reader.full = false ∧
    2 ≤ st.line_reader.eols_back.length ∧
    st.current_range.range.start + 2 ≤ st.line_reader.eols_back.length)

/-! ## Basic facts about the scanning loop -/

theorem extendLoop_eq (n : Nat) (eols it : List Nat) :
    extendLoop eols it n = (eols ++ it.take n, it.drop n, decide (it.length < n)) := by
  induction n generalizing eols it with
  | zero => simp [extendLoop]
  | succ n ih =>
    cases it with
    | nil => simp [extendLoop]
    | cons x rest =>
      rw [extendLoop, ih]
      simp [List.append_assoc, Nat.succ_lt_succ_iff]

theorem extend_of_lt (eols it : List Nat) (l s : Nat)
    (h : l + 1 < eols.length) : extend eols it l s = (eols, it, false) := by
  unfold extend
  rw [if_neg (by omega)]

theorem extend_of_le (eols it : List Nat) (l s : Nat)
    (h : eols.length ≤ l + 1) :
    extend eols it l s =
      (eols ++ it.take (l + 1 - eols.length), it.drop (l + 1 - eols.length),
        if it.length < l + 1 - eols.length then true
        else decide ((eols ++ it.take (l + 1 - eols.length)).getLast? = some s)) := by
  unfold extend
  rw [if_pos h, extendLoop_eq]
  by_cases hx : it.length < l + 1 - eols.length <;> simp [hx]

theorem windows2_length (l : List Nat) : (windows2 l).length = l.length - 1 := by
  induction l with
  | nil => simp [windows2]
  | cons a t ih =>
    cases t with
    | nil => simp [windows2]
    | cons b r =>
      rw [windows2]
      simp only [List.length_cons] at ih ⊢
      omega

theorem lines_length (rd : LineReader) (eols : List Nat) :
    (rd.lines eols).length = eols.length - 1 := by
  simp [LineReader.lines, windows2_length]

/-! ## Shape of a forward read -/

theorem read_forw_snd (rd0 : LineReader) (q : URange) :
    (rd0.read_forw q).2 =
      ⟨LinesRange.pos (q.limit ((rd0.extendForw q.end').eols_forw.length - 1)),
        (rd0.extendForw q.end').lines
          (((rd0.extendForw q.end').eols_forw.take
              ((q.limit ((rd0.extendForw q.end').eols_forw.length - 1)).end' + 1)).drop
            (q.limit ((rd0.extendForw q.end').eols_forw.length - 1)).start),
        ⟨((((rd0.extendForw q.end').eols_forw.take
              ((q.limit ((rd0.extendForw q.end').eols_forw.length - 1)).end' + 1)).drop
            (q.limit ((rd0.extendForw q.end').eols_forw.length - 1)).start).head?).getD 0,
          ((((rd0.extendForw q.end').eols_forw.take
              ((q.limit ((rd0.extendForw q.end').eols_forw.length - 1)).end' + 1)).drop
            (q.limit ((rd0.extendForw q.end').eols_forw.length - 1)).start).getLast?).getD 0⟩⟩ :=
  rfl

theorem read_forw_fst (rd0 : LineReader) (q : URange) :
    (rd0.read_forw q).1 = rd0.extendForw q.end' := rfl

theorem extendForw_full_self (rd : LineReader) (l : Nat) (h : rd.full = true) :
    rd.extendForw l = rd := by
  unfold LineReader.extendForw
  rw [if_pos h]

theorem read_forw_lines_length (rd0 : LineReader) (q : URange) :
    ((rd0.read_forw q).2).lines.length =
      min ((q.limit ((rd0.extendForw q.end').eols_forw.length - 1)).end' + 1)
          (rd0.extendForw q.end').eols_forw.length -
        (q.limit ((rd0.extendForw q.end').eols_forw.length - 1)).start - 1 := by
  rw [read_forw_snd]
  simp [lines_length]

theorem limit_count_le (L : Nat) (q : URange) :
    min ((q.limit (L - 1)).end' + 1) L - (q.limit (L - 1)).start - 1 ≤
      max (size_hint q) 1 := by
  simp only [URange.limit, size_hint]
  omega

theorem limit_count_le_of_width (L : Nat) (q : URange) (h : 1 ≤ size_hint q) :
    min ((q.limit (L - 1)).end' + 1) L - (q.limit (L - 1)).start - 1 ≤
      size_hint q := by
  simp only [URange.limit, size_hint] at h ⊢
  omega

theorem read_forw_lines_le (rd0 : LineReader) (q : URange) :
    ((rd0.read_forw q).2).lines.length ≤ max (size_hint q) 1 := by
  rw [read_forw_lines_length]
  exact limit_count_le _ q

theorem read_forw_lines_le_width (rd0 : LineReader) (q : URange)
    (h : 1 ≤ size_hint q) : ((rd0.read_forw q).2).lines.length ≤ size_hint q := by
  rw [read_forw_lines_length]
  exact limit_count_le_of_width _ q h

/-! ## Shape of a backward read -/

theorem read_back_of_full (rd0 : LineReader) (q : URange) (h : rd0.full = true) :
    rd0.read_back q =
      (LineReader.mk (rd0.eols_forw ++ rd0.eols_back.reverse) [] rd0.eols_iter
          rd0.buf true).read_forw
        (q.inverted ((rd0.eols_forw ++ rd0.eols_back.reverse).length - 1)) := by
  simp only [LineReader.read_back, h, if_true]

theorem read_back_of_flag (rd0 : LineReader) (q : URange) (hf : rd0.full = false)
    (hflag :
      (extend rd0.eols_back rd0.eols_iter.reverse q.end' rd0.buf.length).2.2 = true) :
    rd0.read_back q =
      (LineReader.mk
          (rd0.eols_forw ++
            (extend rd0.eols_back rd0.eols_iter.reverse q.end' rd0.buf.length).1.reverse)
          []
          (extend rd0.eols_back rd0.eols_iter.reverse q.end' rd0.buf.length).2.1.reverse
          rd0.buf true).read_forw
        (q.inverted
          ((rd0.eols_forw ++
              (extend rd0.eols_back rd0.eols_iter.reverse q.end'
                rd0.buf.length).1.reverse).length - 1)) := by
  simp only [LineReader.read_back, hf, Bool.false_eq_true, if_false, hflag, if_true]

theorem read_back_of_not_flag (rd0 : LineReader) (q : URange)
    (hf : rd0.full = false)
    (hflag :
      (extend rd0.eols_back rd0.eols_iter.reverse q.end' rd0.buf.length).2.2 = false) :
    rd0.read_back q =
      (let r := extend rd0.eols_back rd0.eols_iter.reverse q.end' rd0.buf.length
       let rd : LineReader := ⟨rd0.eols_forw, r.1, r.2.1.reverse, rd0.buf, false⟩
       let rg := q.limit (r.1.length - 1)
       let slice := (r.1.take (rg.end' + 1)).drop rg.start
       (rd, ⟨LinesRange.neg rg, rd.lines slice.reverse,
          ⟨(slice.head?).getD 0, (slice.getLast?).getD 0⟩⟩)) := by
  simp only [LineReader.read_back, hf, Bool.false_eq_true, if_false, hflag]

theorem size_hint_inverted_le (q : URange) (n : Nat) :
    size_hint (q.inverted n) ≤ size_hint q := by
  simp only [URange.inverted, size_hint]
  omega

/-- No state, no matter how it was reached, ever returns more lines than the
requested width (provided the request is at least one line wide). -/
theorem read_lines_le_width (rd : LineReader) (r : LinesRange)
    (h : 1 ≤ size_hint r.range) :
    ((rd.read r).2).lines.length ≤ size_hint r.range := by
  cases r with
  | mk sign range =>
    cases sign with
    | Pos => exact read_forw_lines_le_width rd range h
    | Neg =>
      have h' : 1 ≤ size_hint range := h
      show ((rd.read_back range).2).lines.length ≤ size_hint range
      by_cases hfull : rd.full = true
      · rw [read_back_of_full rd range hfull]
        calc ((LineReader.read_forw _ _).2).lines.length
            ≤ max (size_hint (range.inverted _)) 1 := read_forw_lines_le _ _
          _ ≤ max (size_hint range) 1 :=
              max_le_max_right 1 (size_hint_inverted_le range _)
          _ = size_hint range := by omega
      · rw [Bool.not_eq_true] at hfull
        by_cases hflag :
            (extend rd.eols_back rd.eols_iter.reverse range.end' rd.buf.length).2.2 = true
        · rw [read_back_of_flag rd range hfull hflag]
          calc ((LineReader.read_forw _ _).2).lines.length
              ≤ max (size_hint (range.inverted _)) 1 := read_forw_lines_le _ _
            _ ≤ max (size_hint range) 1 :=
                max_le_max_right 1 (size_hint_inverted_le range _)
            _ = size_hint range := by omega
        · rw [Bool.not_eq_true] at hflag
          rw [read_back_of_not_flag rd range hfull hflag]
          simp only [lines_length, List.length_reverse, List.length_drop,
            List.length_take]
          exact limit_count_le_of_width _ range h

/-! ## Completing a scan in one call -/

theorem extend_exhaust (eols it : List Nat) (l s : Nat)
    (h1 : eols.length ≤ l + 1) (h2 : eols.length + it.length ≤ l + 1)
    (h3 : (eols ++ it).getLast? = some s ∨ it.length < l + 1 - eols.length) :
    extend eols it l s = (eols ++ it, [], true) := by
  rw [extend_of_le _ _ _ _ h1]
  have htake : it.take (l + 1 - eols.length) = it :=
    List.take_of_length_le (by omega)
  have hdrop : it.drop (l + 1 - eols.length) = [] :=
    List.drop_eq_nil_of_le (by omega)
  rw [htake, hdrop]
  rcases Nat.lt_or_ge it.length (l + 1 - eols.length) with hlt | hge
  · rw [if_pos hlt]
  · rw [if_neg (by omega)]
    rcases h3 with h3 | h3
    · simp [h3]
    · omega

/-- C5: for any `LinesRange` (either anchor) and shift amount such that no
clamping to 0 happens in either step, shifting toward the start and then back
toward the end is the identity.  In this embedding the only operations that can
clamp are the two truncated subtractions of the raw `shiftl`; on a
forward-anchored range they are clamp-free iff `k ≤ start` and `k ≤ end`, and
on a backward-anchored range (where step one adds and step two subtracts what
was just added) they can never clamp, so no hypothesis is needed. -/
theorem C5_shift_roundtrip (r : LinesRange) (k : Nat)
    (h : r.sign = Sign.Pos → k ≤ r.range.start ∧ k ≤ r.range.end') :
    (r.shiftl k).shiftr k = r := by
  cases r with
  | mk sign range =>
    cases range with
    | mk s e =>
      cases sign with
      | Pos =>
        obtain ⟨h1, h2⟩ := h rfl
        have h1' : k ≤ s := h1
        have h2' : k ≤ e := h2
        simp only [LinesRange.shiftl, LinesRange.shiftr, LinesRange.pos,
          URange.shiftl, URange.shiftr, LinesRange.mk.injEq, URange.mk.injEq,
          true_and]
        omega
      | Neg =>
        simp only [LinesRange.shiftl, LinesRange.shiftr, LinesRange.neg,
          URange.shiftl, URange.shiftr, LinesRange.mk.injEq, URange.mk.injEq,
          true_and]
        omega

/-- C5 witness: a concrete clamp-free round trip. -/
theorem C5_witness :
    ((LinesRange.pos ⟨2, 5⟩).shiftl 2).shiftr 2 = LinesRange.pos ⟨2, 5⟩ :=
  C5_shift_roundtrip (LinesRange.pos ⟨2, 5⟩) 2 (fun _ => by decide)

/-- C1 counterexample: on the byte source `"a\nb\nc\n"` a fresh reader's
`read(backward[0,1))` does not return `["c"]` (it returns the phantom empty
line after the trailing newline). -/
theorem C1_counterexample :
    ((LineReader.new [97, 10, 98, 10, 99, 10]).read
        (LinesRange.neg ⟨0, 1⟩)).2.lines ≠ [[99]] := by
  decide

/-- C1 amended: on `"a\nb\nc\n"` a fresh reader's `read(backward[0,1))`
materializes backward `[0,1)` and returns exactly one line, the empty line
between the trailing newline and end-of-file. -/
theorem C1_amended_thm :
    ((LineReader.new [97, 10, 98, 10, 99, 10]).read
          (LinesRange.neg ⟨0, 1⟩)).2.lines = [[]] ∧
      ((LineReader.new [97, 10, 98, 10, 99, 10]).read
          (LinesRange.neg ⟨0, 1⟩)).2.range = LinesRange.neg ⟨0, 1⟩ := by
  decide

/-- C2 counterexample: on the empty byte source `read(forward[0,5))` does not
return zero lines. -/
theorem C2_counterexample :
    ((LineReader.new []).read (LinesRange.pos ⟨0, 5⟩)).2.lines ≠ [] := by
  decide

/-- C2 amended: an empty file yields exactly one empty line for every forward
request covering at least one line ordinal (and in particular for
`read(forward[0,5))`), never an error. -/
theorem C2_amended_thm (q : URange) (h : 1 ≤ q.end') :
    ((LineReader.new []).read (LinesRange.pos q)).2.lines = [[]] := by
  have hext0 : extend [] [USIZE_MAX, 0] q.end' 0 = ([USIZE_MAX, 0], [], true) := by
    have h3 : (([] : List Nat) ++ [USIZE_MAX, 0]).getLast? = some 0 := by rfl
    have := extend_exhaust [] [USIZE_MAX, 0] q.end' 0 (by simp)
      (by simp; omega) (Or.inl h3)
    simpa using this
  have hext : (LineReader.new []).extendForw q.end' =
      ⟨[USIZE_MAX, 0], [], [], [], true⟩ := by
    show (⟨[], [], initEols [], [], false⟩ : LineReader).extendForw q.end' = _
    unfold LineReader.extendForw
    have hi : initEols ([] : List Nat) = [USIZE_MAX, 0] := rfl
    simp [hi, hext0]
  show ((LineReader.new []).read_forw q).2.lines = [[]]
  rw [read_forw_snd, hext]
  have h2 : min 1 q.end' = 1 := min_eq_left h
  simp [URange.limit, h2, LineReader.lines, windows2, bufSlice]

/-- C2 witness: the concrete scenario `read(forward[0,5))` on the empty file. -/
theorem C2_witness :
    ((LineReader.new []).read (LinesRange.pos ⟨0, 5⟩)).2.lines = [[]] :=
  C2_amended_thm ⟨0, 5⟩ (by decide)

/-- C3 counterexample: on a fresh reader over `"a\nb\nc\n"`,
`read(forward[0,2))` reports a `byte_span` whose start (the sentinel
`usize::MAX`) exceeds its end, so the span is not a `[start,end)` subinterval
of the file. -/
theorem C3_counterexample :
    ¬ (((LineReader.new [97, 10, 98, 10, 99, 10]).read
            (LinesRange.pos ⟨0, 2⟩)).2.buf_range.start ≤
        ((LineReader.new [97, 10, 98, 10, 99, 10]).read
            (LinesRange.pos ⟨0, 2⟩)).2.buf_range.end') := by
  decide

/-- C7: for the ten-line source `"0\n1\n...\n8\n9"`, `read(forward[5,100))`
silently clamps to the available content: it materializes forward `[5,10)` and
returns exactly lines 5..10. -/
theorem C7_clamping :
    ((LineReader.new
            [48, 10, 49, 10, 50, 10, 51, 10, 52, 10, 53, 10, 54, 10, 55, 10,
              56, 10, 57]).read
          (LinesRange.pos ⟨5, 100⟩)).2.range = LinesRange.pos ⟨5, 10⟩ ∧
      ((LineReader.new
            [48, 10, 49, 10, 50, 10, 51, 10, 52, 10, 53, 10, 54, 10, 55, 10,
              56, 10, 57]).read
          (LinesRange.pos ⟨5, 100⟩)).2.lines =
        [[53], [54], [55], [56], [57]] := by
  decide

/-! ## Reads entirely past end-of-file (C10) and direction symmetry (C4) -/

theorem initEols_length (buf : List Nat) :
    (initEols buf).length = totalLines buf + 1 := by
  simp [initEols, totalLines]

theorem initEols_getLast? (buf : List Nat) :
    (initEols buf).getLast? = some buf.length := by
  unfold initEols
  rw [show USIZE_MAX :: (memchr_iter buf ++ [buf.length]) =
      (USIZE_MAX :: memchr_iter buf) ++ [buf.length] from rfl,
    List.getLast?_concat]

theorem new_extendForw_exhaust (buf : List Nat) (l : Nat)
    (h : totalLines buf ≤ l) :
    (LineReader.new buf).extendForw l = ⟨initEols buf, [], [], buf, true⟩ := by
  have hlen := initEols_length buf
  have hext0 : extend [] (initEols buf) l buf.length = (initEols buf, [], true) := by
    have h3 : (([] : List Nat) ++ initEols buf).getLast? = some buf.length := by
      simpa using initEols_getLast? buf
    have := extend_exhaust [] (initEols buf) l buf.length (by simp)
      (by simp [hlen]; omega) (Or.inl h3)
    simpa using this
  show (⟨[], [], initEols buf, buf, false⟩ : LineReader).extendForw l = _
  unfold LineReader.extendForw
  simp [hext0]

/-- C10: on a non-empty byte source, a fresh forward read whose start ordinal
is at or past the total number of lines is not empty: it materializes
forward `[total-1, total)` and returns exactly one line, the last line (the
slice between the last two boundary offsets). -/
theorem C10_past_eof (buf : List Nat) (q : URange) (_hne : buf ≠ [])
    (hs : totalLines buf ≤ q.start) (hse : q.start ≤ q.end') :
    ((LineReader.new buf).read (LinesRange.pos q)).2.range =
        LinesRange.pos ⟨totalLines buf - 1, totalLines buf⟩ ∧
      ((LineReader.new buf).read (LinesRange.pos q)).2.lines =
        (LineReader.new buf).lines
          ((initEols buf).drop (totalLines buf - 1)) ∧
      ((LineReader.new buf).read (LinesRange.pos q)).2.lines.length = 1 := by
  have hlen := initEols_length buf
  have htot : 1 ≤ totalLines buf := by simp [totalLines]
  have hext := new_extendForw_exhaust buf q.end' (le_trans hs hse)
  have hread :
      ((LineReader.new buf).read (LinesRange.pos q)).2 =
        ((LineReader.new buf).read_forw q).2 := rfl
  rw [hread, read_forw_snd, hext]
  have havail : (initEols buf).length - 1 = totalLines buf := by omega
  have hlim : q.limit (totalLines buf) =
      ⟨totalLines buf - 1, totalLines buf⟩ := by
    unfold URange.limit
    congr 1
    · exact min_eq_left (by omega)
    · exact min_eq_left (by omega)
  have htake : (initEols buf).take (totalLines buf + 1) = initEols buf :=
    List.take_of_length_le (by omega)
  simp only [havail, hlim]
  refine ⟨trivial, ?_, ?_⟩
  · show (LineReader.mk (initEols buf) [] [] buf true).lines
        (((initEols buf).take (totalLines buf + 1)).drop (totalLines buf - 1)) = _
    rw [htake]
    rfl
  · show ((LineReader.mk (initEols buf) [] [] buf true).lines
        (((initEols buf).take (totalLines buf + 1)).drop (totalLines buf - 1))).length = 1
    rw [htake, lines_length]
    simp only [List.length_drop]
    omega

/-- C10 witness: the two-line source `"a\nb"`, requesting `[5,9)`. -/
theorem C10_witness :
    ((LineReader.new [97, 10, 98]).read (LinesRange.pos ⟨5, 9⟩)).2.range =
        LinesRange.pos ⟨totalLines [97, 10, 98] - 1, totalLines [97, 10, 98]⟩ ∧
      ((LineReader.new [97, 10, 98]).read (LinesRange.pos ⟨5, 9⟩)).2.lines =
        (LineReader.new [97, 10, 98]).lines
          ((initEols [97, 10, 98]).drop (totalLines [97, 10, 98] - 1)) ∧
      ((LineReader.new [97, 10, 98]).read (LinesRange.pos ⟨5, 9⟩)).2.lines.length = 1 :=
  C10_past_eof [97, 10, 98] ⟨5, 9⟩ (by decide) (by decide) (by decide)

/-- C4: once the file is fully indexed (completion flag set, backward cache
merged away), a backward read of the end-anchored window `[total-hi, total-lo)`
returns the same ordered line content as the forward read of `[lo, hi)`,
for any `lo ≤ hi ≤ total`. -/
theorem C4_direction_symmetry (rd : LineReader) (lo hi : Nat)
    (hfull : rd.full = true) (hback : rd.eols_back = [])
    (hlohi : lo ≤ hi) (hhi : hi ≤ rd.eols_forw.length - 1) :
    ((rd.read (LinesRange.neg ⟨rd.eols_forw.length - 1 - hi,
          rd.eols_forw.length - 1 - lo⟩)).2).lines =
      ((rd.read (LinesRange.pos ⟨lo, hi⟩)).2).lines := by
  have hrb := read_back_of_full rd
    ⟨rd.eols_forw.length - 1 - hi, rd.eols_forw.length - 1 - lo⟩ hfull
  have hlist : rd.eols_forw ++ rd.eols_back.reverse = rd.eols_forw := by
    rw [hback]
    simp
  have hmerge : LineReader.mk rd.eols_forw [] rd.eols_iter rd.buf true = rd := by
    cases rd with
    | mk a b c d e =>
      simp only at hfull hback
      subst hfull
      subst hback
      rfl
  have hinv : (URange.mk (rd.eols_forw.length - 1 - hi)
        (rd.eols_forw.length - 1 - lo)).inverted (rd.eols_forw.length - 1) =
      ⟨lo, hi⟩ := by
    simp only [URange.inverted, URange.mk.injEq]
    constructor <;> omega
  show ((rd.read_back ⟨rd.eols_forw.length - 1 - hi,
      rd.eols_forw.length - 1 - lo⟩).2).lines =
    ((rd.read_forw ⟨lo, hi⟩).2).lines
  rw [hrb, hlist, hmerge, hinv]

/-- C4 witness: the fully indexed reader over `"a\nb\nc\n"` (total 4),
comparing `backward[1,3)` with `forward[1,3)`. -/
theorem C4_witness :
    ((((LineReader.new [97, 10, 98, 10, 99, 10]).read
            (LinesRange.pos ⟨0, 10⟩)).1.read
          (LinesRange.neg
            ⟨((LineReader.new [97, 10, 98, 10, 99, 10]).read
                    (LinesRange.pos ⟨0, 10⟩)).1.eols_forw.length - 1 - 3,
              ((LineReader.new [97, 10, 98, 10, 99, 10]).read
                    (LinesRange.pos ⟨0, 10⟩)).1.eols_forw.length - 1 - 1⟩)).2).lines =
      ((((LineReader.new [97, 10, 98, 10, 99, 10]).read
              (LinesRange.pos ⟨0, 10⟩)).1.read
            (LinesRange.pos ⟨1, 3⟩)).2).lines :=
  C4_direction_symmetry _ 1 3 (by decide) (by decide) (by decide) (by decide)

/-! ## Preservation of the reachable-state invariant -/

theorem reverse_take_drop (l : List Nat) (n : Nat) :
    (l.reverse.drop n).reverse ++ (l.reverse.take n).reverse = l := by
  rw [← List.reverse_append, List.take_append_drop, List.reverse_reverse]

theorem master_new (buf : List Nat) : Master buf (LineReader.new buf) :=
  ⟨rfl, [], [], by simp [LineReader.new], Or.inl ⟨rfl, rfl, rfl⟩⟩

theorem extendForw_cases (rd : LineReader) (l : Nat) :
    rd.extendForw l = rd ∨
      (∃ n, rd.full = false ∧
        rd.extendForw l =
          ⟨rd.eols_forw ++ rd.eols_iter.take n, rd.eols_back,
            rd.eols_iter.drop n, rd.buf, false⟩) ∨
      (∃ n, rd.full = false ∧
        rd.extendForw l =
          ⟨(rd.eols_forw ++ rd.eols_iter.take n) ++ rd.eols_back.reverse, [],
            rd.eols_iter.drop n, rd.buf, true⟩) := by
  by_cases hfull : rd.full = true
  · exact Or.inl (extendForw_full_self rd l hfull)
  · rw [Bool.not_eq_true] at hfull
    by_cases hlen : rd.eols_forw.length ≤ l + 1
    · set n := l + 1 - rd.eols_forw.length with hn
      by_cases hflag : (extend rd.eols_forw rd.eols_iter l rd.buf.length).2.2 = true
      · refine Or.inr (Or.inr ⟨n, hfull, ?_⟩)
        unfold LineReader.extendForw
        rw [hfull]
        simp only [Bool.false_eq_true, if_false]
        rw [extend_of_le _ _ _ _ hlen] at hflag ⊢
        rw [if_pos hflag]
      · rw [Bool.not_eq_true] at hflag
        refine Or.inr (Or.inl ⟨n, hfull, ?_⟩)
        unfold LineReader.extendForw
        rw [hfull]
        simp only [Bool.false_eq_true, if_false]
        rw [extend_of_le _ _ _ _ hlen] at hflag ⊢
        rw [if_neg (by rw [hflag]; exact Bool.false_ne_true)]
    · refine Or.inr (Or.inl ⟨0, hfull, ?_⟩)
      unfold LineReader.extendForw
      rw [hfull]
      simp only [Bool.false_eq_true, if_false]
      rw [extend_of_lt _ _ _ _ (by omega)]
      simp [hfull]

theorem master_extendForw (buf : List Nat) (rd : LineReader) (l : Nat)
    (hM : Master buf rd) : Master buf (rd.extendForw l) := by
  obtain ⟨hbuf, f, b, hdecomp, hcase⟩ := hM
  rcases extendForw_cases rd l with heq | ⟨n, hfull, heq⟩ | ⟨n, hfull, heq⟩
  · rw [heq]
    exact ⟨hbuf, f, b, hdecomp, hcase⟩
  · rcases hcase with ⟨_, hforw, hback⟩ | ⟨hfl, _, _⟩
    · refine ⟨by rw [heq, hbuf], f ++ rd.eols_iter.take n, b, ?_, Or.inl ?_⟩
      · rw [heq]
        show initEols buf =
          (f ++ rd.eols_iter.take n) ++ rd.eols_iter.drop n ++ b.reverse
        rw [hdecomp]
        simp [List.append_assoc]
      · rw [heq]
        exact ⟨rfl, by rw [hforw], hback⟩
    · rw [hfl] at hfull
      exact absurd hfull (by simp)
  · rcases hcase with ⟨_, hforw, hback⟩ | ⟨hfl, _, _⟩
    · refine ⟨by rw [heq, hbuf], f ++ rd.eols_iter.take n, b, ?_, Or.inr ?_⟩
      · rw [heq]
        show initEols buf =
          (f ++ rd.eols_iter.take n) ++ rd.eols_iter.drop n ++ b.reverse
        rw [hdecomp]
        simp [List.append_assoc]
      · rw [heq]
        refine ⟨rfl, ?_, rfl⟩
        show (rd.eols_forw ++ rd.eols_iter.take n) ++ rd.eols_back.reverse =
          (f ++ rd.eols_iter.take n) ++ b.reverse
        rw [hforw, hback]
    · rw [hfl] at hfull
      exact absurd hfull (by simp)

theorem master_read_forw (buf : List Nat) (rd : LineReader) (q : URange)
    (hM : Master buf rd) : Master buf ((rd.read_forw q).1) := by
  rw [read_forw_fst]
  exact master_extendForw buf rd q.end' hM

theorem extend_fst_snd (eols it : List Nat) (l s : Nat) :
    ∃ n, (extend eols it l s).1 = eols ++ it.take n ∧
      (extend eols it l s).2.1 = it.drop n := by
  by_cases hlen : eols.length ≤ l + 1
  · refine ⟨l + 1 - eols.length, ?_, ?_⟩ <;> rw [extend_of_le _ _ _ _ hlen]
  · refine ⟨0, ?_, ?_⟩ <;> rw [extend_of_lt _ _ _ _ (by omega)] <;> simp

theorem read_back_of_not_flag_fst (rd0 : LineReader) (q : URange)
    (hf : rd0.full = false)
    (hflag :
      (extend rd0.eols_back rd0.eols_iter.reverse q.end' rd0.buf.length).2.2 = false) :
    (rd0.read_back q).1 =
      ⟨rd0.eols_forw,
        (extend rd0.eols_back rd0.eols_iter.reverse q.end' rd0.buf.length).1,
        (extend rd0.eols_back rd0.eols_iter.reverse q.end' rd0.buf.length).2.1.reverse,
        rd0.buf, false⟩ := by
  rw [read_back_of_not_flag rd0 q hf hflag]

theorem master_read_back (buf : List Nat) (rd : LineReader) (q : URange)
    (hM : Master buf rd) : Master buf ((rd.read_back q).1) := by
  obtain ⟨hbuf, f, b, hdecomp, hcase⟩ := hM
  by_cases hfull : rd.full = true
  · rw [read_back_of_full rd q hfull]
    rcases hcase with ⟨hfl, _, _⟩ | ⟨_, hforw, hback⟩
    · rw [hfl] at hfull
      exact absurd hfull (by decide)
    · have hmerged :
          LineReader.mk (rd.eols_forw ++ rd.eols_back.reverse) [] rd.eols_iter
              rd.buf true =
            ⟨f ++ b.reverse, [], rd.eols_iter, rd.buf, true⟩ := by
        rw [hforw, hback]
        simp
      rw [read_forw_fst, hmerged]
      exact master_extendForw buf _ _
        ⟨hbuf, f, b, hdecomp, Or.inr ⟨rfl, rfl, rfl⟩⟩
  · rw [Bool.not_eq_true] at hfull
    rcases hcase with ⟨_, hforw, hback⟩ | ⟨hfl, _, _⟩
    swap
    · rw [hfl] at hfull
      exact absurd hfull (by decide)
    obtain ⟨n, hr1, hr21⟩ :=
      extend_fst_snd rd.eols_back rd.eols_iter.reverse q.end' rd.buf.length
    have hdecomp' :
        initEols buf =
          f ++ (rd.eols_iter.reverse.drop n).reverse ++
            (b ++ rd.eols_iter.reverse.take n).reverse := by
      rw [hdecomp, List.reverse_append,
        ← reverse_take_drop rd.eols_iter n]
      simp [List.append_assoc]
    by_cases hflag :
        (extend rd.eols_back rd.eols_iter.reverse q.end' rd.buf.length).2.2 = true
    · rw [read_back_of_flag rd q hfull hflag, read_forw_fst]
      apply master_extendForw buf _ _
      refine ⟨hbuf, f, b ++ rd.eols_iter.reverse.take n, ?_,
        Or.inr ⟨rfl, ?_, rfl⟩⟩
      · show initEols buf =
          f ++ (extend rd.eols_back rd.eols_iter.reverse q.end'
              rd.buf.length).2.1.reverse ++
            (b ++ rd.eols_iter.reverse.take n).reverse
        rw [hr21]
        exact hdecomp'
      · show rd.eols_forw ++
            (extend rd.eols_back rd.eols_iter.reverse q.end'
              rd.buf.length).1.reverse =
          f ++ (b ++ rd.eols_iter.reverse.take n).reverse
        rw [hr1, hforw, hback]
    · rw [Bool.not_eq_true] at hflag
      rw [read_back_of_not_flag_fst rd q hfull hflag]
      refine ⟨hbuf, f, b ++ rd.eols_iter.reverse.take n, ?_,
        Or.inl ⟨rfl, ?_, ?_⟩⟩
      · show initEols buf =
          f ++ (extend rd.eols_back rd.eols_iter.reverse q.end'
              rd.buf.length).2.1.reverse ++
            (b ++ rd.eols_iter.reverse.take n).reverse
        rw [hr21]
        exact hdecomp'
      · exact hforw
      · show (extend rd.eols_back rd.eols_iter.reverse q.end'
            rd.buf.length).1 = b ++ rd.eols_iter.reverse.take n
        rw [hr1, hback]

theorem master_read (buf : List Nat) (rd : LineReader) (r : LinesRange)
    (hM : Master buf rd) : Master buf ((rd.read r).1) := by
  cases r with
  | mk sign range =>
    cases sign with
    | Pos => exact master_read_forw buf rd range hM
    | Neg => exact master_read_back buf rd range hM

theorem master_applyReads (buf : List Nat) (rd : LineReader)
    (rs : List LinesRange) (hM : Master buf rd) :
    Master buf (applyReads rd rs) := by
  induction rs generalizing rd with
  | nil => exact hM
  | cons r rs ih => exact ih _ (master_read buf rd r hM)

/-! ## No duplicates in the boundary caches (C9) -/

theorem memchr_iter_mem_lt (buf : List Nat) (x : Nat)
    (hx : x ∈ memchr_iter buf) : x < buf.length := by
  unfold memchr_iter at hx
  exact List.mem_range.mp (List.mem_of_mem_filter hx)

theorem initEols_pairwise_tail (buf : List Nat) :
    (memchr_iter buf ++ [buf.length]).Pairwise (· < ·) := by
  rw [List.pairwise_append]
  refine ⟨(List.pairwise_lt_range buf.length).sublist (List.filter_sublist _),
    List.pairwise_singleton _ _, ?_⟩
  intro x hx y hy
  rw [List.mem_singleton] at hy
  rw [hy]
  exact memchr_iter_mem_lt buf x hx

theorem initEols_tail_le (buf : List Nat) (x : Nat)
    (hx : x ∈ memchr_iter buf ++ [buf.length]) : x ≤ buf.length := by
  rw [List.mem_append, List.mem_singleton] at hx
  rcases hx with hx | hx
  · exact le_of_lt (memchr_iter_mem_lt buf x hx)
  · exact le_of_eq hx

theorem initEols_nodup (buf : List Nat) (hlen : buf.length < USIZE_MAX) :
    (initEols buf).Nodup := by
  unfold initEols
  rw [List.nodup_cons]
  constructor
  · intro hmem
    have := initEols_tail_le buf USIZE_MAX hmem
    omega
  · exact (initEols_pairwise_tail buf).imp (fun h => Nat.ne_of_lt h)

theorem master_nodup (buf : List Nat) (rd : LineReader)
    (hinit : (initEols buf).Nodup) (hM : Master buf rd) :
    (rd.eols_forw ++ rd.eols_back).Nodup := by
  obtain ⟨_, f, b, hdecomp, hcase⟩ := hM
  have hsub : (f ++ b.reverse).Sublist (f ++ rd.eols_iter ++ b.reverse) := by
    rw [List.append_assoc]
    exact (List.sublist_append_right rd.eols_iter b.reverse).append_left f
  have hnd : (f ++ b.reverse).Nodup := by
    rw [hdecomp] at hinit
    exact hinit.sublist hsub
  rcases hcase with ⟨_, hforw, hback⟩ | ⟨_, hforw, hback⟩
  · rw [hforw, hback]
    rw [List.nodup_append] at hnd ⊢
    refine ⟨hnd.1, List.nodup_reverse.mp hnd.2.1, ?_⟩
    intro x hx hx'
    exact hnd.2.2 hx (List.mem_reverse.mpr hx')
  · rw [hforw, hback, List.append_nil]
    exact hnd

theorem forw_prefix_read (rd : LineReader) (r : LinesRange) :
    rd.eols_forw <+: ((rd.read r).1).eols_forw := by
  cases r with
  | mk sign range =>
    cases sign with
    | Pos =>
      show rd.eols_forw <+: ((rd.read_forw range).1).eols_forw
      rw [read_forw_fst]
      rcases extendForw_cases rd range.end' with heq | ⟨n, _, heq⟩ | ⟨n, _, heq⟩ <;>
        rw [heq]
      · exact List.prefix_append _ _
      · show rd.eols_forw <+:
          (rd.eols_forw ++ rd.eols_iter.take n) ++ rd.eols_back.reverse
        rw [List.append_assoc]
        exact List.prefix_append _ _
    | Neg =>
      show rd.eols_forw <+: ((rd.read_back range).1).eols_forw
      by_cases hfull : rd.full = true
      · rw [read_back_of_full rd range hfull, read_forw_fst,
          extendForw_full_self _ _ rfl]
        exact List.prefix_append _ _
      · rw [Bool.not_eq_true] at hfull
        by_cases hflag :
            (extend rd.eols_back rd.eols_iter.reverse range.end' rd.buf.length).2.2 = true
        · rw [read_back_of_flag rd range hfull hflag, read_forw_fst,
            extendForw_full_self _ _ rfl]
          exact List.prefix_append _ _
        · rw [Bool.not_eq_true] at hflag
          rw [read_back_of_not_flag_fst rd range hfull hflag]

theorem mem_caches_read (rd : LineReader) (r : LinesRange) (x : Nat)
    (hx : x ∈ rd.eols_forw ++ rd.eols_back) :
    x ∈ ((rd.read r).1).eols_forw ++ ((rd.read r).1).eols_back := by
  rw [List.mem_append] at hx
  cases r with
  | mk sign range =>
    cases sign with
    | Pos =>
      show x ∈ ((rd.read_forw range).1).eols_forw ++ ((rd.read_forw range).1).eols_back
      rw [read_forw_fst]
      rcases extendForw_cases rd range.end' with heq | ⟨n, _, heq⟩ | ⟨n, _, heq⟩ <;>
          rw [heq] <;> rcases hx with hx | hx <;>
        simp [hx]
    | Neg =>
      show x ∈ ((rd.read_back range).1).eols_forw ++ ((rd.read_back range).1).eols_back
      by_cases hfull : rd.full = true
      · rw [read_back_of_full rd range hfull, read_forw_fst,
          extendForw_full_self _ _ rfl]
        rcases hx with hx | hx <;> simp [hx]
      · rw [Bool.not_eq_true] at hfull
        obtain ⟨n, hr1, _⟩ :=
          extend_fst_snd rd.eols_back rd.eols_iter.reverse range.end' rd.buf.length
        by_cases hflag :
            (extend rd.eols_back rd.eols_iter.reverse range.end' rd.buf.length).2.2 = true
        · rw [read_back_of_flag rd range hfull hflag, read_forw_fst,
            extendForw_full_self _ _ rfl]
          rcases hx with hx | hx <;> simp [hr1, hx]
        · rw [Bool.not_eq_true] at hflag
          rw [read_back_of_not_flag_fst rd range hfull hflag]
          rcases hx with hx | hx <;> simp [hr1, hx]

/-- C9: after any sequence of reads, the forward cache survives as a prefix of
the next state's forward cache, every cached boundary offset stays present in
the union of the two caches across any further read (so the merge drops no
boundary), and the combined caches never contain a duplicate offset, before or
after the next read. -/
theorem C9_cache_monotone (buf : List Nat) (hlen : buf.length < USIZE_MAX)
    (reads : List LinesRange) (r : LinesRange) :
    (applyReads (LineReader.new buf) reads).eols_forw <+:
        ((applyReads (LineReader.new buf) reads).read r).1.eols_forw ∧
      (∀ x ∈ (applyReads (LineReader.new buf) reads).eols_forw ++
          (applyReads (LineReader.new buf) reads).eols_back,
        x ∈ ((applyReads (LineReader.new buf) reads).read r).1.eols_forw ++
          ((applyReads (LineReader.new buf) reads).read r).1.eols_back) ∧
      ((applyReads (LineReader.new buf) reads).eols_forw ++
          (applyReads (LineReader.new buf) reads).eols_back).Nodup ∧
      (((applyReads (LineReader.new buf) reads).read r).1.eols_forw ++
          ((applyReads (LineReader.new buf) reads).read r).1.eols_back).Nodup := by
  have hM := master_applyReads buf (LineReader.new buf) reads (master_new buf)
  have hinit := initEols_nodup buf hlen
  refine ⟨forw_prefix_read _ r, fun x hx => mem_caches_read _ r x hx,
    master_nodup buf _ hinit hM, master_nodup buf _ hinit ?_⟩
  exact master_read buf _ r hM

/-- C9 witness: the source `"a\nb\nc\n"` after a backward read, followed by a
large forward read. -/
theorem C9_witness :
    (applyReads (LineReader.new [97, 10, 98, 10, 99, 10])
          [LinesRange.neg ⟨0, 1⟩]).eols_forw <+:
        ((applyReads (LineReader.new [97, 10, 98, 10, 99, 10])
              [LinesRange.neg ⟨0, 1⟩]).read (LinesRange.pos ⟨0, 9⟩)).1.eols_forw ∧
      (∀ x ∈ (applyReads (LineReader.new [97, 10, 98, 10, 99, 10])
            [LinesRange.neg ⟨0, 1⟩]).eols_forw ++
          (applyReads (LineReader.new [97, 10, 98, 10, 99, 10])
            [LinesRange.neg ⟨0, 1⟩]).eols_back,
        x ∈ ((applyReads (LineReader.new [97, 10, 98, 10, 99, 10])
              [LinesRange.neg ⟨0, 1⟩]).read (LinesRange.pos ⟨0, 9⟩)).1.eols_forw ++
          ((applyReads (LineReader.new [97, 10, 98, 10, 99, 10])
              [LinesRange.neg ⟨0, 1⟩]).read (LinesRange.pos ⟨0, 9⟩)).1.eols_back) ∧
      ((applyReads (LineReader.new [97, 10, 98, 10, 99, 10])
            [LinesRange.neg ⟨0, 1⟩]).eols_forw ++
          (applyReads (LineReader.new [97, 10, 98, 10, 99, 10])
            [LinesRange.neg ⟨0, 1⟩]).eols_back).Nodup ∧
      (((applyReads (LineReader.new [97, 10, 98, 10, 99, 10])
              [LinesRange.neg ⟨0, 1⟩]).read (LinesRange.pos ⟨0, 9⟩)).1.eols_forw ++
          ((applyReads (LineReader.new [97, 10, 98, 10, 99, 10])
              [LinesRange.neg ⟨0, 1⟩]).read (LinesRange.pos ⟨0, 9⟩)).1.eols_back).Nodup :=
  C9_cache_monotone [97, 10, 98, 10, 99, 10] (by decide) [LinesRange.neg ⟨0, 1⟩]
    (LinesRange.pos ⟨0, 9⟩)

/-! ## The byte span of forward-served reads (C3) -/

theorem sublist_drop_one (l1 l2 : List Nat) (h : List.Sublist l1 l2) :
    List.Sublist (l1.drop 1) (l2.drop 1) := by
  cases l1 with
  | nil => simp
  | cons a t =>
    obtain ⟨r1, r2, rfl, ha, hsub⟩ := List.cons_sublist_iff.mp h
    have hr1 : 1 ≤ r1.length := by
      cases r1 with
      | nil => simp at ha
      | cons x xs => simp
    rw [List.drop_append_of_le_length hr1]
    simp only [List.drop_one, List.tail_cons]
    exact hsub.trans (List.sublist_append_right _ _)

theorem master_forw_sublist (buf : List Nat) (rd : LineReader)
    (hM : Master buf rd) : rd.eols_forw.Sublist (initEols buf) := by
  obtain ⟨_, f, b, hdecomp, hcase⟩ := hM
  rcases hcase with ⟨_, hforw, _⟩ | ⟨_, hforw, _⟩
  · rw [hforw, hdecomp, List.append_assoc]
    exact (List.prefix_append f _).sublist
  · rw [hforw, hdecomp, List.append_assoc]
    exact List.Sublist.append_left (List.sublist_append_right _ _) f

theorem master_forw_tail (buf : List Nat) (rd : LineReader)
    (hM : Master buf rd) :
    (rd.eols_forw.drop 1).Pairwise (· < ·) ∧
      ∀ x ∈ rd.eols_forw.drop 1, x ≤ buf.length := by
  have htail : (rd.eols_forw.drop 1).Sublist (memchr_iter buf ++ [buf.length]) := by
    have h := sublist_drop_one _ _ (master_forw_sublist buf rd hM)
    simpa [initEols] using h
  exact ⟨(initEols_pairwise_tail buf).sublist htail,
    fun x hx => initEols_tail_le buf x (htail.subset hx)⟩

theorem headD_le_getLastD_of_pairwise (l : List Nat)
    (hp : l.Pairwise (· < ·)) : (l.head?).getD 0 ≤ (l.getLast?).getD 0 := by
  cases l with
  | nil => simp
  | cons a t =>
    rw [List.getLast?_eq_getLast _ (by simp)]
    have hmem := List.getLast_mem (l := a :: t) (by simp)
    simp only [List.head?_cons, Option.getD_some]
    rcases List.mem_cons.mp hmem with heq | hmem'
    · rw [heq]
    · exact le_of_lt ((List.pairwise_cons.mp hp).1 _ hmem')

theorem getLastD_le (l : List Nat) (m : Nat) (h : ∀ x ∈ l, x ≤ m) :
    (l.getLast?).getD 0 ≤ m := by
  cases l with
  | nil => simp
  | cons a t =>
    rw [List.getLast?_eq_getLast _ (by simp)]
    exact h _ (List.getLast_mem _)

theorem span_of_slice (buf : List Nat) (rd : LineReader) (hM : Master buf rd)
    (s e : Nat) (hs : 1 ≤ s) :
    ((((rd.eols_forw.take (e + 1)).drop s).head?).getD 0 ≤
        (((rd.eols_forw.take (e + 1)).drop s).getLast?).getD 0) ∧
      ((((rd.eols_forw.take (e + 1)).drop s).getLast?).getD 0 ≤ buf.length) := by
  obtain ⟨htailp, htaille⟩ := master_forw_tail buf rd hM
  have hsl : ((rd.eols_forw.take (e + 1)).drop s).Sublist
      (rd.eols_forw.drop 1) := by
    have h1 : ((rd.eols_forw.take (e + 1)).drop s).Sublist
        (rd.eols_forw.drop s) := by
      rw [List.drop_take]
      exact List.take_sublist _ _
    have h2 : (rd.eols_forw.drop s).Sublist (rd.eols_forw.drop 1) := by
      have heq : rd.eols_forw.drop s = (rd.eols_forw.drop 1).drop (s - 1) := by
        rw [List.drop_drop]
        congr 1
        omega
      rw [heq]
      exact List.drop_sublist _ _
    exact h1.trans h2
  refine ⟨headD_le_getLastD_of_pairwise _ (htailp.sublist hsl), ?_⟩
  exact getLastD_le _ _ (fun x hx => htaille x (hsl.subset hx))

theorem read_forw_span (buf : List Nat) (rd0 : LineReader) (q : URange)
    (hM : Master buf rd0)
    (hstart : 1 ≤ ((rd0.read_forw q).2).range.range.start) :
    ((rd0.read_forw q).2).buf_range.start ≤
        ((rd0.read_forw q).2).buf_range.end' ∧
      ((rd0.read_forw q).2).buf_range.end' ≤ buf.length := by
  rw [read_forw_snd] at hstart ⊢
  exact span_of_slice buf (rd0.extendForw q.end')
    (master_extendForw buf rd0 q.end' hM)
    (q.limit ((rd0.extendForw q.end').eols_forw.length - 1)).start
    (q.limit ((rd0.extendForw q.end').eols_forw.length - 1)).end' hstart

theorem master_merged_full (buf : List Nat) (rd : LineReader)
    (hM : Master buf rd) (hfull : rd.full = true) :
    Master buf
      ⟨rd.eols_forw ++ rd.eols_back.reverse, [], rd.eols_iter, rd.buf, true⟩ := by
  obtain ⟨hbuf, f, b, hdecomp, hcase⟩ := hM
  rcases hcase with ⟨hfl, _, _⟩ | ⟨_, hforw, hback⟩
  · rw [hfl] at hfull
    exact absurd hfull (by decide)
  · refine ⟨hbuf, f, b, hdecomp, Or.inr ⟨rfl, ?_, rfl⟩⟩
    show rd.eols_forw ++ rd.eols_back.reverse = f ++ b.reverse
    rw [hforw, hback]
    simp

theorem master_mergedB (buf : List Nat) (rd : LineReader) (e : Nat)
    (hM : Master buf rd) (hfull : rd.full = false) :
    Master buf
      ⟨rd.eols_forw ++
          (extend rd.eols_back rd.eols_iter.reverse e rd.buf.length).1.reverse,
        [],
        (extend rd.eols_back rd.eols_iter.reverse e rd.buf.length).2.1.reverse,
        rd.buf, true⟩ := by
  obtain ⟨hbuf, f, b, hdecomp, hcase⟩ := hM
  rcases hcase with ⟨_, hforw, hback⟩ | ⟨hfl, _, _⟩
  swap
  · rw [hfl] at hfull
    exact absurd hfull (by decide)
  obtain ⟨n, hr1, hr21⟩ :=
    extend_fst_snd rd.eols_back rd.eols_iter.reverse e rd.buf.length
  refine ⟨hbuf, f, b ++ rd.eols_iter.reverse.take n, ?_, Or.inr ⟨rfl, ?_, rfl⟩⟩
  · show initEols buf =
      f ++ (extend rd.eols_back rd.eols_iter.reverse e
          rd.buf.length).2.1.reverse ++
        (b ++ rd.eols_iter.reverse.take n).reverse
    rw [hr21, hdecomp, List.reverse_append, ← reverse_take_drop rd.eols_iter n]
    simp [List.append_assoc]
  · show rd.eols_forw ++
        (extend rd.eols_back rd.eols_iter.reverse e rd.buf.length).1.reverse =
      f ++ (b ++ rd.eols_iter.reverse.take n).reverse
    rw [hr1, hforw, hback]

theorem read_back_of_not_flag_range (rd0 : LineReader) (q : URange)
    (hf : rd0.full = false)
    (hflag :
      (extend rd0.eols_back rd0.eols_iter.reverse q.end' rd0.buf.length).2.2 = false) :
    ((rd0.read_back q).2).range =
      LinesRange.neg
        (q.limit
          ((extend rd0.eols_back rd0.eols_iter.reverse q.end'
              rd0.buf.length).1.length - 1)) := by
  rw [read_back_of_not_flag rd0 q hf hflag]

/-- C3 amended: on every reachable reader over `buf`, whenever a read's result
is forward-anchored and its materialized window starts at ordinal 1 or later
(so the sentinel boundary `usize::MAX` of line 0 is not used), the reported
`byte_span` is a genuine subinterval of the file: its start (the first boundary
used) is at most its end (the last boundary used), and its end is at most the
file length. -/
theorem C3_amended_thm (buf : List Nat) (reads : List LinesRange)
    (r : LinesRange)
    (hsign :
      (((applyReads (LineReader.new buf) reads).read r).2).range.sign = Sign.Pos)
    (hstart :
      1 ≤ (((applyReads (LineReader.new buf) reads).read r).2).range.range.start) :
    (((applyReads (LineReader.new buf) reads).read r).2).buf_range.start ≤
        (((applyReads (LineReader.new buf) reads).read r).2).buf_range.end' ∧
      (((applyReads (LineReader.new buf) reads).read r).2).buf_range.end' ≤
        buf.length := by
  have hM := master_applyReads buf (LineReader.new buf) reads (master_new buf)
  set rd := applyReads (LineReader.new buf) reads with hrd
  cases r with
  | mk sign range =>
    cases sign with
    | Pos => exact read_forw_span buf rd range hM hstart
    | Neg =>
      have hread : rd.read ⟨Sign.Neg, range⟩ = rd.read_back range := rfl
      rw [hread] at hsign hstart ⊢
      by_cases hfull : rd.full = true
      · rw [read_back_of_full rd range hfull] at hstart ⊢
        exact read_forw_span buf _ _ (master_merged_full buf rd hM hfull) hstart
      · rw [Bool.not_eq_true] at hfull
        by_cases hflag :
            (extend rd.eols_back rd.eols_iter.reverse range.end'
              rd.buf.length).2.2 = true
        · rw [read_back_of_flag rd range hfull hflag] at hstart ⊢
          exact read_forw_span buf _ _
            (master_mergedB buf rd range.end' hM hfull) hstart
        · rw [Bool.not_eq_true] at hflag
          rw [read_back_of_not_flag_range rd range hfull hflag] at hsign
          simp [LinesRange.neg] at hsign

/-- C3 witness: a fresh reader over `"a\nb\nc\n"` serving `forward[1,2)`:
byte_span is `1..3`, inside the 6-byte file, and backs the returned line
`"b"`. -/
theorem C3_witness :
    (((applyReads (LineReader.new [97, 10, 98, 10, 99, 10]) []).read
          (LinesRange.pos ⟨1, 2⟩)).2).buf_range.start ≤
        (((applyReads (LineReader.new [97, 10, 98, 10, 99, 10]) []).read
            (LinesRange.pos ⟨1, 2⟩)).2).buf_range.end' ∧
      (((applyReads (LineReader.new [97, 10, 98, 10, 99, 10]) []).read
            (LinesRange.pos ⟨1, 2⟩)).2).buf_range.end' ≤
        [97, 10, 98, 10, 99, 10].length :=
  C3_amended_thm [97, 10, 98, 10, 99, 10] [] (LinesRange.pos ⟨1, 2⟩)
    (by decide) (by decide)

/-! ## LineUp at the top of the file is a no-op (C8) -/

theorem extendForw_take_stable (rd : LineReader) (l k : Nat)
    (hlen : k ≤ rd.eols_forw.length) :
    (rd.extendForw l).eols_forw.take k = rd.eols_forw.take k ∧
      k ≤ (rd.extendForw l).eols_forw.length := by
  rcases extendForw_cases rd l with heq | ⟨n, _, heq⟩ | ⟨n, _, heq⟩ <;> rw [heq]
  · exact ⟨rfl, hlen⟩
  · constructor
    · show (rd.eols_forw ++ rd.eols_iter.take n).take k = _
      rw [List.take_append_of_le_length hlen]
    · show k ≤ (rd.eols_forw ++ rd.eols_iter.take n).length
      rw [List.length_append]
      omega
  · constructor
    · show ((rd.eols_forw ++ rd.eols_iter.take n) ++ rd.eols_back.reverse).take k =
        _
      rw [List.append_assoc, List.take_append_of_le_length hlen]
    · show k ≤
        ((rd.eols_forw ++ rd.eols_iter.take n) ++ rd.eols_back.reverse).length
      simp only [List.length_append]
      omega

theorem read_forw_zeroH (rd : LineReader) (H : Nat)
    (hlen : H + 1 ≤ rd.eols_forw.length) :
    ((rd.read_forw ⟨0, H⟩).2).range = LinesRange.pos ⟨0, H⟩ ∧
      ((rd.read_forw ⟨0, H⟩).2).lines.length = H := by
  have hst := extendForw_take_stable rd ((⟨0, H⟩ : URange).end') (H + 1) hlen
  have hlen' : H + 1 ≤ (rd.extendForw (⟨0, H⟩ : URange).end').eols_forw.length :=
    hst.2
  have hlen'' : H + 1 ≤ (rd.extendForw H).eols_forw.length := hst.2
  have hlim : (URange.mk 0 H).limit
      ((rd.extendForw (⟨0, H⟩ : URange).end').eols_forw.length - 1) = ⟨0, H⟩ := by
    unfold URange.limit
    simp only [URange.mk.injEq]
    constructor <;> omega
  constructor
  · rw [read_forw_snd]
    show LinesRange.pos ((URange.mk 0 H).limit _) = _
    rw [hlim]
  · rw [read_forw_lines_length, hlim]
    show min (H + 1) _ - 0 - 1 = H
    omega

/-- C8: from a Viewing state whose materialized range is forward `[0,H)` and
whose reader already caches `H+1` boundaries (as any state that materialized
`[0,H)` does), `LineUp` computes the same requested range (the shift clamps at
the top), the re-read materializes the same range, so `process_move` issues no
draw commands and leaves `current_range` unchanged. -/
theorem C8_lineup_noop (rd : LineReader) (H : Nat)
    (hlen : H + 1 ≤ rd.eols_forw.length) :
    ((NormalMode.mk rd (LinesRange.pos ⟨0, H⟩)).process_move
          VerticalMove.LineUp H).2 = [] ∧
      ((NormalMode.mk rd (LinesRange.pos ⟨0, H⟩)).process_move
            VerticalMove.LineUp H).1.current_range = LinesRange.pos ⟨0, H⟩ := by
  obtain ⟨hrange, hlinlen⟩ := read_forw_zeroH rd H hlen
  have hmr : (NormalMode.mk rd (LinesRange.pos ⟨0, H⟩)).move_and_read
        VerticalMove.LineUp H =
      (⟨(rd.read_forw ⟨0, H⟩).1, LinesRange.pos ⟨0, H⟩⟩,
        (rd.read_forw ⟨0, H⟩).2) := by
    simp only [NormalMode.move_and_read, mv, LinesRange.shiftl, LinesRange.pos,
      URange.shiftl, LineReader.read, size_hint, Nat.zero_sub, Nat.sub_zero,
      hlinlen]
    simp
  unfold NormalMode.process_move
  rw [hmr]
  simp [hrange]

/-- C8 witness: the reader over `"a\nb\nc\n"` after the initial one-row read,
at the top of the file with `H = 1`. -/
theorem C8_witness :
    ((NormalMode.mk ((LineReader.new [97, 10, 98, 10, 99, 10]).read
            (LinesRange.pos ⟨0, 1⟩)).1
          (LinesRange.pos ⟨0, 1⟩)).process_move VerticalMove.LineUp 1).2 = [] ∧
      ((NormalMode.mk ((LineReader.new [97, 10, 98, 10, 99, 10]).read
              (LinesRange.pos ⟨0, 1⟩)).1
            (LinesRange.pos ⟨0, 1⟩)).process_move
          VerticalMove.LineUp 1).1.current_range = LinesRange.pos ⟨0, 1⟩ :=
  C8_lineup_noop _ 1 (by decide)

/-! ## Navigator invariant machinery (C6) -/

theorem limit_width (q : URange) (A : Nat) (hA : 1 ≤ A)
    (hq : q.start < q.end') : (q.limit A).start < (q.limit A).end' := by
  simp only [URange.limit]
  omega

theorem inverted_width (q : URange) (t : Nat) (h1 : q.start < q.end')
    (h2 : q.start < t) : (q.inverted t).start < (q.inverted t).end' := by
  simp only [URange.inverted]
  omega

theorem extendForw_full_mono (rd : LineReader) (l : Nat)
    (h : rd.full = true) : (rd.extendForw l).full = true := by
  rw [extendForw_full_self rd l h]
  exact h

theorem extendForw_length_mono (rd : LineReader) (l : Nat) :
    rd.eols_forw.length ≤ (rd.extendForw l).eols_forw.length := by
  rcases extendForw_cases rd l with heq | ⟨n, _, heq⟩ | ⟨n, _, heq⟩ <;>
      rw [heq] <;> simp only [List.length_append] <;>
    omega

theorem extend_false_length (eols it : List Nat) (l s : Nat)
    (hflag : (extend eols it l s).2.2 = false) :
    l + 1 ≤ (extend eols it l s).1.length := by
  by_cases hlen : eols.length ≤ l + 1
  · rw [extend_of_le _ _ _ _ hlen] at hflag ⊢
    by_cases hit : it.length < l + 1 - eols.length
    · rw [if_pos hit] at hflag
      simp at hflag
    · simp only [List.length_append, List.length_take]
      omega
  · rw [extend_of_lt _ _ _ _ (by omega)]
    show l + 1 ≤ eols.length
    omega

theorem read_forw_width (rd : LineReader) (q : URange)
    (h2 : 2 ≤ rd.eols_forw.length) (hq : q.start < q.end') :
    ((rd.read_forw q).2).range.range.start <
      ((rd.read_forw q).2).range.range.end' := by
  rw [read_forw_snd]
  have hmono := extendForw_length_mono rd q.end'
  exact limit_width q _ (by omega) hq

theorem extendl_sign (q : LinesRange) (k : Nat) :
    (q.extendl k).sign = q.sign := by
  cases q with
  | mk sign range => cases sign <;> rfl

theorem extendl_width (q : LinesRange) (k : Nat)
    (hq : q.range.start < q.range.end') :
    (q.extendl k).range.start < (q.extendl k).range.end' := by
  cases q with
  | mk sign range =>
    cases range with
    | mk s e =>
      have hq' : s < e := hq
      cases sign <;>
          simp only [LinesRange.extendl, LinesRange.pos, LinesRange.neg,
            URange.extendl, URange.extendr] <;>
        omega

theorem extendl_start_le (q : LinesRange) (k : Nat) :
    (q.extendl k).range.start ≤ q.range.start := by
  cases q with
  | mk sign range =>
    cases range with
    | mk s e =>
      cases sign <;>
          simp only [LinesRange.extendl, LinesRange.pos, LinesRange.neg,
            URange.extendl, URange.extendr] <;>
        omega

theorem mv_width (m : VerticalMove) (cur : LinesRange) (H : Nat)
    (hc : cur.range.start < cur.range.end') (hH : 1 ≤ H) :
    (mv m cur H).range.start < (mv m cur H).range.end' := by
  cases cur with
  | mk sign range =>
    cases range with
    | mk s e =>
      have hc' : s < e := hc
      cases sign <;> cases m <;>
          simp only [mv, LinesRange.shiftl, LinesRange.shiftr, LinesRange.pos,
            LinesRange.neg, URange.shiftl, URange.shiftr] <;>
        omega

theorem mv_neg_bound (m : VerticalMove) (cur : LinesRange) (H fl bl : Nat)
    (hH : 1 ≤ H) (hfw : 2 ≤ fl)
    (hneg : cur.sign = Sign.Neg → 2 ≤ bl ∧ cur.range.start + 2 ≤ bl ∧
      H + 1 ≤ fl)
    (hsgn : (mv m cur H).sign = Sign.Neg) :
    (mv m cur H).range.start + 2 ≤ fl + bl := by
  cases cur with
  | mk sign range =>
    cases range with
    | mk s e =>
      cases sign with
      | Pos =>
        cases m <;>
            simp only [mv, LinesRange.shiftl, LinesRange.shiftr, LinesRange.pos,
              LinesRange.neg, URange.shiftl, URange.shiftr] at hsgn ⊢ <;>
          first
            | omega
            | exact absurd hsgn (by decide)
      | Neg =>
        obtain ⟨hb2, hbs, hfl⟩ := hneg rfl
        have hbs' : s + 2 ≤ bl := hbs
        have hdiv : H / 2 ≤ H := Nat.div_le_self H 2
        cases m <;>
            simp only [mv, LinesRange.shiftl, LinesRange.shiftr, LinesRange.pos,
              LinesRange.neg, URange.shiftl, URange.shiftr] at hsgn ⊢ <;>
          omega

theorem read_full_mono (rd : LineReader) (r : LinesRange)
    (h : rd.full = true) : ((rd.read r).1).full = true := by
  cases r with
  | mk sign range =>
    cases sign with
    | Pos =>
      show ((rd.read_forw range).1).full = true
      rw [read_forw_fst, extendForw_full_self rd _ h]
      exact h
    | Neg =>
      show ((rd.read_back range).1).full = true
      rw [read_back_of_full rd range h, read_forw_fst,
        extendForw_full_self _ _ rfl]

theorem read_forw_length_le (rd : LineReader) (r : LinesRange) :
    rd.eols_forw.length ≤ ((rd.read r).1).eols_forw.length :=
  (forw_prefix_read rd r).length_le

theorem cachesize_mono (rd : LineReader) (r : LinesRange) :
    rd.eols_forw.length + rd.eols_back.length ≤
      ((rd.read r).1).eols_forw.length + ((rd.read r).1).eols_back.length := by
  cases r with
  | mk sign range =>
    cases sign with
    | Pos =>
      show rd.eols_forw.length + rd.eols_back.length ≤
        ((rd.read_forw range).1).eols_forw.length +
          ((rd.read_forw range).1).eols_back.length
      rw [read_forw_fst]
      rcases extendForw_cases rd range.end' with heq | ⟨n, _, heq⟩ | ⟨n, _, heq⟩ <;>
          rw [heq] <;> simp only [List.length_append, List.length_reverse,
            List.length_nil] <;>
        omega
    | Neg =>
      show rd.eols_forw.length + rd.eols_back.length ≤
        ((rd.read_back range).1).eols_forw.length +
          ((rd.read_back range).1).eols_back.length
      by_cases hfull : rd.full = true
      · rw [read_back_of_full rd range hfull, read_forw_fst,
          extendForw_full_self _ _ rfl]
        simp only [List.length_append, List.length_reverse, List.length_nil]
        omega
      · rw [Bool.not_eq_true] at hfull
        obtain ⟨n, hr1, _⟩ :=
          extend_fst_snd rd.eols_back rd.eols_iter.reverse range.end' rd.buf.length
        by_cases hflag :
            (extend rd.eols_back rd.eols_iter.reverse range.end'
              rd.buf.length).2.2 = true
        · rw [read_back_of_flag rd range hfull hflag, read_forw_fst,
            extendForw_full_self _ _ rfl]
          simp only [hr1, List.length_append, List.length_reverse,
            List.length_nil]
          omega
        · rw [Bool.not_eq_true] at hflag
          rw [read_back_of_not_flag_fst rd range hfull hflag]
          simp only [hr1, List.length_append, List.length_reverse]
          omega

theorem nav_read_good (buf : List Nat) (H : Nat) (rd : LineReader)
    (q : LinesRange) (hM : Master buf rd)
    (hforw2 : 2 ≤ rd.eols_forw.length)
    (hforwH : rd.full = false → H + 1 ≤ rd.eols_forw.length)
    (hq : q.range.start < q.range.end')
    (hqs : q.sign = Sign.Neg →
      q.range.start + 2 ≤ rd.eols_forw.length + rd.eols_back.length) :
    Master buf ((rd.read q).1) ∧
      2 ≤ ((rd.read q).1).eols_forw.length ∧
      (((rd.read q).1).full = false →
        H + 1 ≤ ((rd.read q).1).eols_forw.length) ∧
      ((rd.read q).2).range.range.start < ((rd.read q).2).range.range.end' ∧
      (((rd.read q).2).range.sign = Sign.Neg →
        ((rd.read q).1).full = false ∧
          2 ≤ ((rd.read q).1).eols_back.length ∧
          ((rd.read q).2).range.range.start + 2 ≤
            ((rd.read q).1).eols_back.length) := by
  have hMr := master_read buf rd q hM
  have hlen2 : 2 ≤ ((rd.read q).1).eols_forw.length :=
    le_trans hforw2 (read_forw_length_le rd q)
  cases q with
  | mk sign range =>
    have hq' : range.start < range.end' := hq
    cases sign with
    | Pos =>
      refine ⟨hMr, hlen2, ?_, ?_, ?_⟩
      · intro hf'
        have hful : rd.full = false := by
          by_contra hc
          rw [Bool.not_eq_false] at hc
          have ht := read_full_mono rd ⟨Sign.Pos, range⟩ hc
          rw [ht] at hf'
          exact absurd hf' (by decide)
        exact le_trans (hforwH hful) (read_forw_length_le rd _)
      · exact read_forw_width rd range hforw2 hq'
      · intro hs
        have hs' : ((rd.read_forw range).2).range.sign = Sign.Neg := hs
        rw [read_forw_snd] at hs'
        simp [LinesRange.pos] at hs'
    | Neg =>
      have hqs' : range.start + 2 ≤
          rd.eols_forw.length + rd.eols_back.length := hqs rfl
      by_cases hfull : rd.full = true
      · -- full: merge is a no-op, served forward after `inverted`
        have hOr := read_back_of_full rd range hfull
        obtain ⟨_, f, b, _, hcase⟩ := hM
        have hback : rd.eols_back = [] := by
          rcases hcase with ⟨hfl, _, _⟩ | ⟨_, _, hb⟩
          · rw [hfl] at hfull
            exact absurd hfull (by decide)
          · exact hb
        have hb0 : rd.eols_back.length = 0 := by
          rw [hback]
          rfl
        have hmlen : 2 ≤ (rd.eols_forw ++ rd.eols_back.reverse).length := by
          rw [List.length_append]
          omega
        have hbound : range.start <
            (rd.eols_forw ++ rd.eols_back.reverse).length - 1 := by
          rw [List.length_append, List.length_reverse]
          omega
        refine ⟨hMr, hlen2, ?_, ?_, ?_⟩
        · intro hf'
          have ht := read_full_mono rd ⟨Sign.Neg, range⟩ hfull
          rw [ht] at hf'
          exact absurd hf' (by decide)
        · show ((rd.read_back range).2).range.range.start <
            ((rd.read_back range).2).range.range.end'
          rw [hOr]
          exact read_forw_width _ _ hmlen (inverted_width range _ hq' hbound)
        · intro hs
          have hs' : ((rd.read_back range).2).range.sign = Sign.Neg := hs
          rw [hOr, read_forw_snd] at hs'
          simp [LinesRange.pos] at hs'
      · rw [Bool.not_eq_true] at hfull
        by_cases hflag :
            (extend rd.eols_back rd.eols_iter.reverse range.end'
              rd.buf.length).2.2 = true
        · -- completion triggered by this backward scan
          have hOr := read_back_of_flag rd range hfull hflag
          obtain ⟨n, hr1, _⟩ :=
            extend_fst_snd rd.eols_back rd.eols_iter.reverse range.end'
              rd.buf.length
          have hr1len : rd.eols_back.length ≤
              (extend rd.eols_back rd.eols_iter.reverse range.end'
                rd.buf.length).1.length := by
            rw [hr1, List.length_append]
            omega
          have hmlen : 2 ≤ (rd.eols_forw ++
              (extend rd.eols_back rd.eols_iter.reverse range.end'
                rd.buf.length).1.reverse).length := by
            rw [List.length_append]
            omega
          have hbound : range.start < (rd.eols_forw ++
              (extend rd.eols_back rd.eols_iter.reverse range.end'
                rd.buf.length).1.reverse).length - 1 := by
            rw [List.length_append, List.length_reverse]
            omega
          refine ⟨hMr, hlen2, ?_, ?_, ?_⟩
          · intro hf'
            have ht : ((rd.read_back range).1).full = true := by
              rw [hOr, read_forw_fst, extendForw_full_self _ _ rfl]
            have hf'' : ((rd.read_back range).1).full = false := hf'
            rw [ht] at hf''
            exact absurd hf'' (by decide)
          · show ((rd.read_back range).2).range.range.start <
              ((rd.read_back range).2).range.range.end'
            rw [hOr]
            exact read_forw_width _ _ hmlen (inverted_width range _ hq' hbound)
          · intro hs
            have hs' : ((rd.read_back range).2).range.sign = Sign.Neg := hs
            rw [hOr, read_forw_snd] at hs'
            simp [LinesRange.pos] at hs'
        · -- served from the backward cache
          rw [Bool.not_eq_true] at hflag
          have hlenb := extend_false_length rd.eols_back rd.eols_iter.reverse
            range.end' rd.buf.length hflag
          have hfst := read_back_of_not_flag_fst rd range hfull hflag
          have hrg := read_back_of_not_flag_range rd range hfull hflag
          have hqe1 : 1 ≤ range.end' := by omega
          refine ⟨hMr, hlen2, ?_, ?_, ?_⟩
          · intro _
            show H + 1 ≤ ((rd.read_back range).1).eols_forw.length
            rw [hfst]
            exact hforwH hfull
          · show ((rd.read_back range).2).range.range.start <
              ((rd.read_back range).2).range.range.end'
            rw [hrg]
            exact limit_width range _ (by omega) hq'
          · intro _
            refine ⟨?_, ?_, ?_⟩
            · show ((rd.read_back range).1).full = false
              rw [hfst]
            · show 2 ≤ ((rd.read_back range).1).eols_back.length
              rw [hfst]
              show 2 ≤ (extend rd.eols_back rd.eols_iter.reverse range.end'
                rd.buf.length).1.length
              omega
            · show ((rd.read_back range).2).range.range.start + 2 ≤
                ((rd.read_back range).1).eols_back.length
              rw [hrg, hfst]
              show (range.limit
                  ((extend rd.eols_back rd.eols_iter.reverse range.end'
                    rd.buf.length).1.length - 1)).start + 2 ≤
                (extend rd.eols_back rd.eols_iter.reverse range.end'
                  rd.buf.length).1.length
              simp only [URange.limit]
              omega

theorem move_and_read_lack0 (st : NormalMode) (m : VerticalMove) (rows : Nat)
    (h : size_hint (mv m st.current_range rows).range -
        ((st.line_reader.read (mv m st.current_range rows)).2).lines.length = 0) :
    st.move_and_read m rows =
      (⟨(st.line_reader.read (mv m st.current_range rows)).1, st.current_range⟩,
        (st.line_reader.read (mv m st.current_range rows)).2) := by
  simp only [NormalMode.move_and_read]
  rw [if_pos h]

theorem move_and_read_lackpos (st : NormalMode) (m : VerticalMove) (rows : Nat)
    (h : ¬ size_hint (mv m st.current_range rows).range -
        ((st.line_reader.read (mv m st.current_range rows)).2).lines.length = 0) :
    st.move_and_read m rows =
      (⟨((st.line_reader.read (mv m st.current_range rows)).1.read
            ((mv m st.current_range rows).extendl
              (size_hint (mv m st.current_range rows).range -
                ((st.line_reader.read (mv m st.current_range rows)).2).lines.length))).1,
          st.current_range⟩,
        ((st.line_reader.read (mv m st.current_range rows)).1.read
            ((mv m st.current_range rows).extendl
              (size_hint (mv m st.current_range rows).range -
                ((st.line_reader.read
                  (mv m st.current_range rows)).2).lines.length))).2) := by
  simp only [NormalMode.move_and_read]
  rw [if_neg h]

theorem process_move_fst (st : NormalMode) (m : VerticalMove) (rows : Nat) :
    ((st.process_move m rows).1).line_reader =
        ((st.move_and_read m rows).1).line_reader ∧
      ((st.process_move m rows).1).current_range =
        ((st.move_and_read m rows).2).range := by
  have hcur : ((st.move_and_read m rows).1).current_range =
      st.current_range := by
    simp only [NormalMode.move_and_read]
    split <;> rfl
  simp only [NormalMode.process_move]
  by_cases h : (st.move_and_read m rows).2.range ≠ st.current_range
  · rw [if_pos h]
    exact ⟨rfl, rfl⟩
  · rw [if_neg h]
    rw [not_not] at h
    exact ⟨rfl, by rw [hcur, h]⟩

theorem extendForw_of_not_full (rd : LineReader) (l : Nat)
    (hfull : rd.full = false) :
    rd.extendForw l =
      if (extend rd.eols_forw rd.eols_iter l rd.buf.length).2.2 then
        ⟨(extend rd.eols_forw rd.eols_iter l rd.buf.length).1 ++
            rd.eols_back.reverse, [],
          (extend rd.eols_forw rd.eols_iter l rd.buf.length).2.1, rd.buf, true⟩
      else
        ⟨(extend rd.eols_forw rd.eols_iter l rd.buf.length).1, rd.eols_back,
          (extend rd.eols_forw rd.eols_iter l rd.buf.length).2.1, rd.buf,
          rd.full⟩ := by
  unfold LineReader.extendForw
  rw [hfull]
  simp only [Bool.false_eq_true, if_false]

theorem new_extendForw_forw (buf : List Nat) (H : Nat) :
    ((LineReader.new buf).extendForw H).eols_forw.length =
        min (H + 1) (initEols buf).length ∧
      (((LineReader.new buf).extendForw H).full = false →
        H + 1 ≤ (initEols buf).length) := by
  have hext : extend ([] : List Nat) (initEols buf) H buf.length =
      ((initEols buf).take (H + 1), (initEols buf).drop (H + 1),
        if (initEols buf).length < H + 1 then true
        else decide (((initEols buf).take (H + 1)).getLast? =
          some buf.length)) := by
    rw [extend_of_le _ _ _ _ (by simp)]
    simp
  have hEq := extendForw_of_not_full (LineReader.new buf) H rfl
  have hforw : (LineReader.new buf).eols_forw = [] := rfl
  have hiter : (LineReader.new buf).eols_iter = initEols buf := rfl
  have hback : (LineReader.new buf).eols_back = [] := rfl
  have hbuf : (LineReader.new buf).buf = buf := rfl
  rw [hforw, hiter, hback, hbuf, hext] at hEq
  by_cases hLT : (initEols buf).length < H + 1
  · rw [if_pos hLT] at hEq
    simp only [if_true] at hEq
    rw [hEq]
    constructor
    · simp only [List.length_append, List.length_take, List.reverse_nil,
        List.length_nil]
      omega
    · intro hfl
      simp at hfl
  · rw [if_neg hLT] at hEq
    by_cases hdec : (((initEols buf).take (H + 1)).getLast? = some buf.length)
    · rw [if_pos (by simp [hdec])] at hEq
      rw [hEq]
      constructor
      · simp only [List.length_append, List.length_take, List.reverse_nil,
          List.length_nil]
        omega
      · intro hfl
        simp at hfl
    · rw [if_neg (by simp [hdec])] at hEq
      rw [hEq]
      constructor
      · simp only [List.length_take]
      · intro _
        omega

theorem navInv_init (buf : List Nat) (H : Nat) (hH : 1 ≤ H) :
    NavInv buf H (initNav buf H) := by
  have hinitlen := initEols_length buf
  have htot : 1 ≤ totalLines buf := Nat.le_add_left 1 _
  obtain ⟨hflen, hffull⟩ := new_extendForw_forw buf H
  have hfst : (((LineReader.new buf).read (LinesRange.pos ⟨0, H⟩)).1) =
      (LineReader.new buf).extendForw H := by
    show (((LineReader.new buf).read_forw ⟨0, H⟩).1) = _
    rw [read_forw_fst]
  unfold NavInv initNav
  refine ⟨?_, ?_, ?_, ?_, ?_⟩
  · exact master_read buf _ _ (master_new buf)
  · show (((LineReader.new buf).read_forw ⟨0, H⟩).2).range.range.start <
      (((LineReader.new buf).read_forw ⟨0, H⟩).2).range.range.end'
    rw [read_forw_snd]
    apply limit_width
    · have h2 : 2 ≤ ((LineReader.new buf).extendForw
          ((⟨0, H⟩ : URange).end')).eols_forw.length := by
        show 2 ≤ ((LineReader.new buf).extendForw H).eols_forw.length
        rw [hflen]
        omega
      omega
    · show (0 : Nat) < H
      omega
  · show 2 ≤
      (((LineReader.new buf).read (LinesRange.pos ⟨0, H⟩)).1).eols_forw.length
    rw [hfst, hflen]
    omega
  · intro hfl
    have hfl' : (((LineReader.new buf).read
        (LinesRange.pos ⟨0, H⟩)).1).full = false := hfl
    show H + 1 ≤
      (((LineReader.new buf).read (LinesRange.pos ⟨0, H⟩)).1).eols_forw.length
    rw [hfst] at hfl' ⊢
    rw [hflen]
    have := hffull hfl'
    omega
  · intro hs
    have hs' : (((LineReader.new buf).read_forw ⟨0, H⟩).2).range.sign =
        Sign.Neg := hs
    rw [read_forw_snd] at hs'
    simp [LinesRange.pos] at hs'

theorem navInv_process_move (buf : List Nat) (H : Nat) (st : NormalMode)
    (m : VerticalMove) (hH : 1 ≤ H) (hI : NavInv buf H st) :
    NavInv buf H ((st.process_move m H).1) := by
  obtain ⟨hM, hw, h2, hHf, hneg⟩ := hI
  obtain ⟨hL, hC⟩ := process_move_fst st m H
  have hq : (mv m st.current_range H).range.start <
      (mv m st.current_range H).range.end' :=
    mv_width m st.current_range H hw hH
  have hqs : (mv m st.current_range H).sign = Sign.Neg →
      (mv m st.current_range H).range.start + 2 ≤
        st.line_reader.eols_forw.length + st.line_reader.eols_back.length := by
    intro hsgn
    apply mv_neg_bound m st.current_range H _ _ hH h2 _ hsgn
    intro hcneg
    obtain ⟨hfull0, hb2, hbs⟩ := hneg hcneg
    exact ⟨hb2, hbs, hHf hfull0⟩
  obtain ⟨g1M, g12, g1H, g1w, g1neg⟩ :=
    nav_read_good buf H st.line_reader (mv m st.current_range H) hM h2 hHf hq hqs
  by_cases hlack : size_hint (mv m st.current_range H).range -
      ((st.line_reader.read (mv m st.current_range H)).2).lines.length = 0
  · have hmr := move_and_read_lack0 st m H hlack
    rw [hmr] at hL hC
    refine ⟨?_, ?_, ?_, ?_, ?_⟩
    · rw [hL]
      exact g1M
    · rw [hC]
      exact g1w
    · rw [hL]
      exact g12
    · intro hf
      rw [hL] at hf ⊢
      exact g1H hf
    · intro hs
      rw [hC] at hs
      rw [hL, hC]
      exact g1neg hs
  · have hmr := move_and_read_lackpos st m H hlack
    rw [hmr] at hL hC
    have hq2 : ((mv m st.current_range H).extendl
          (size_hint (mv m st.current_range H).range -
            ((st.line_reader.read
              (mv m st.current_range H)).2).lines.length)).range.start <
        ((mv m st.current_range H).extendl
          (size_hint (mv m st.current_range H).range -
            ((st.line_reader.read
              (mv m st.current_range H)).2).lines.length)).range.end' :=
      extendl_width _ _ hq
    have hqs2 : ((mv m st.current_range H).extendl
          (size_hint (mv m st.current_range H).range -
            ((st.line_reader.read
              (mv m st.current_range H)).2).lines.length)).sign = Sign.Neg →
        ((mv m st.current_range H).extendl
            (size_hint (mv m st.current_range H).range -
              ((st.line_reader.read
                (mv m st.current_range H)).2).lines.length)).range.start + 2 ≤
          ((st.line_reader.read (mv m st.current_range H)).1).eols_forw.length +
            ((st.line_reader.read
              (mv m st.current_range H)).1).eols_back.length := by
      intro hsgn
      rw [extendl_sign] at hsgn
      have hb := hqs hsgn
      have hmono := cachesize_mono st.line_reader (mv m st.current_range H)
      have hstart := extendl_start_le (mv m st.current_range H)
        (size_hint (mv m st.current_range H).range -
          ((st.line_reader.read (mv m st.current_range H)).2).lines.length)
      omega
    obtain ⟨g2M, g22, g2H, g2w, g2neg⟩ :=
      nav_read_good buf H ((st.line_reader.read (mv m st.current_range H)).1)
        ((mv m st.current_range H).extendl
          (size_hint (mv m st.current_range H).range -
            ((st.line_reader.read (mv m st.current_range H)).2).lines.length))
        g1M g12 g1H hq2 hqs2
    refine ⟨?_, ?_, ?_, ?_, ?_⟩
    · rw [hL]
      exact g2M
    · rw [hC]
      exact g2w
    · rw [hL]
      exact g22
    · intro hf
      rw [hL] at hf ⊢
      exact g2H hf
    · intro hs
      rw [hC] at hs
      rw [hL, hC]
      exact g2neg hs

theorem navInv_navRun (buf : List Nat) (H : Nat) (cmds : List VerticalMove)
    (hH : 1 ≤ H) : NavInv buf H (navRun buf H cmds) := by
  unfold navRun
  suffices h : ∀ st, NavInv buf H st →
      NavInv buf H (cmds.foldl (fun st c => (st.process_move c H).1) st) from
    h _ (navInv_init buf H hH)
  induction cmds with
  | nil => exact fun st h => h
  | cons c cs ih =>
    exact fun st h => ih _ (navInv_process_move buf H st c hH h)

/-- C6: with viewport height `H ≥ 1`, in every navigator state reachable by
any sequence of vertical-move commands from the initial full-page read, the
read issued by `move_and_read` for the next command returns at most as many
lines as the requested range's width, so the unsigned subtraction
`requested_nr - lines.len()` in the source never wraps around. -/
theorem C6_no_wrap (buf : List Nat) (H : Nat) (hH : 1 ≤ H)
    (cmds : List VerticalMove) (m : VerticalMove) :
    (((navRun buf H cmds).line_reader.read
          (mv m (navRun buf H cmds).current_range H)).2).lines.length ≤
      size_hint (mv m (navRun buf H cmds).current_range H).range := by
  obtain ⟨_, hw, _, _, _⟩ := navInv_navRun buf H cmds hH
  have hq := mv_width m (navRun buf H cmds).current_range H hw hH
  apply read_lines_le_width
  simp only [size_hint]
  omega

/-- C6 witness: the three-(plus phantom)-line source `"a\nb\nc\n"` with a
two-row viewport, after a `LineDown`, processing a `LineUp`. -/
theorem C6_witness :
    (((navRun [97, 10, 98, 10, 99, 10] 2 [VerticalMove.LineDown]).line_reader.read
          (mv VerticalMove.LineUp
            (navRun [97, 10, 98, 10, 99, 10] 2
              [VerticalMove.LineDown]).current_range 2)).2).lines.length ≤
      size_hint (mv VerticalMove.LineUp
        (navRun [97, 10, 98, 10, 99, 10] 2
          [VerticalMove.LineDown]).current_range 2).range :=
  C6_no_wrap [97, 10, 98, 10, 99, 10] 2 (by decide) [VerticalMove.LineDown]
    VerticalMove.LineUp
